import Mathlib

/-!
Verification of the NFT sales bot (files `bot.py` and `sales_fetcher.py`).

The Python source is shallowly embedded: network I/O is replaced by explicit
outcome parameters, mutable module state (`last_fetch_time`, `processed_sales`)
is threaded explicitly, and JSON records are modelled as structures holding the
fields the code reads (a missing key is `none`).  Python string truthiness
(`if not tx_hash`) is modelled by `truthyStr`; an `Option` collapsing a missing
key and a falsy value is noted at each field.
-/

namespace SalesBot

/-- Python truthiness for an optional string: `none` and the empty string are
falsy; a non-empty string is kept. -/
def truthyStr : Option String → Option String
  | none => none
  | some s => if s = "" then none else some s

/-- Rendering of an optional string inside a Python f-string: `None` renders
as the four characters `None`. -/
def pyStrOpt : Option String → String
  | none => "None"
  | some s => s

/-- Python `str.rstrip` with a single strip character, on the character list
of the string: removes the maximal run of that character from the end. -/
def pyRstrip (c : Char) (l : List Char) : List Char :=
  (l.reverse.dropWhile (fun x => x = c)).reverse

/-- Decimal digit character for a value below ten (used only with `% 10`). -/
def digitChar (d : Nat) : Char :=
  match d with
  | 0 => '0' | 1 => '1' | 2 => '2' | 3 => '3' | 4 => '4'
  | 5 => '5' | 6 => '6' | 7 => '7' | 8 => '8' | 9 => '9'
  | _ => '?'

/-- Decimal digits of a number, least significant first, with an iteration
budget; the budget is always called with the number itself, which the digit
loop (one decimal division per step) never exhausts. -/
def natDigitsAux : Nat → Nat → List Char
  | _, 0 => []
  | 0, _ + 1 => []
  | fuel + 1, n + 1 => digitChar ((n + 1) % 10) :: natDigitsAux fuel ((n + 1) / 10)

/-- Decimal rendering of a natural number, most significant digit first. -/
def natDigits (n : Nat) : List Char :=
  if n = 0 then ['0'] else (natDigitsAux n n).reverse

/-- All-digit parse of a character list (the body of Python `int(...)` on a
plain digit string). -/
def parseDigits (l : List Char) : Option Nat :=
  if l = [] then none
  else if l.all Char.isDigit then
    some (l.foldl (fun a c => 10 * a + (c.toNat - 48)) 0)
  else none

/-- Python `int(s)`: optional sign followed by decimal digits, `none` on
failure (this models the `ValueError` / `TypeError` caught by the source;
Python's surrounding-whitespace and underscore-grouping acceptance is not
modelled — no claim depends on such inputs). -/
def pyParseInt (s : String) : Option Int :=
  match s.data with
  | '-' :: rest => (parseDigits rest).map (fun n => -(n : Int))
  | '+' :: rest => (parseDigits rest).map (fun n => (n : Int))
  | l => (parseDigits l).map (fun n => (n : Int))

/-! ## Data model (`sales_fetcher.py`) -/

/-- The `asset` object of a raw OpenSea event; only the `token_id` key is
read.  `token_id = none` models a missing or falsy `token_id` value. -/
structure RawAsset where
  token_id : Option String
deriving Repr, DecidableEq

/-- One raw event of the `asset_events` array, holding exactly the fields
`_parse_sales_response` reads.  `transaction_hash` is the value of
`event["transaction"]["transaction_hash"]` (`none` when any step of that path
is missing); `asset = none` models a missing or falsy `asset` object;
`payment_symbol` / `payment_name` are `payment_token["symbol"]` and
`payment_token["name"]`; `total_price = none` models a missing `total_price`
key (the source then defaults to the string `"0"`). -/
structure RawEvent where
  transaction_hash : Option String
  winner_address : Option String
  seller_address : Option String
  asset : Option RawAsset
  payment_symbol : Option String
  payment_name : Option String
  total_price : Option String
deriving Repr, DecidableEq

/-- The `SaleEvent` dataclass (sales_fetcher.py lines 21-31).  The
`timestamp` field (`datetime.utcnow()` at emission) is not modelled; no claim
refers to it. -/
structure SaleEvent where
  tx_hash : String
  buyer : String
  seller : String
  token_id : Option String
  token_ids : Option (List String)
  token_count : Nat
  total_price : Int
deriving Repr, DecidableEq

/-! ## Sale aggregator (`_parse_sales_response`) -/

/-- The truthy transaction hash of an event, mirroring
`tx_hash = event.get("transaction", \x7b\x7d).get("transaction_hash")` followed by
the `if not tx_hash: continue` truthiness test. -/
def txKey (e : RawEvent) : Option String :=
  truthyStr e.transaction_hash

/-- The token id an event contributes: present when the event carries a
truthy `asset` object with a truthy `token_id` (lines 137-141; `str(...)`
coercion is the identity here because the field is modelled as a string). -/
def eventTokenId (e : RawEvent) : Option String :=
  match e.asset with
  | none => none
  | some a => truthyStr a.token_id

/-- The token ids collected from a transaction group, in event order. -/
def collectTokenIds (events : List RawEvent) : List String :=
  events.filterMap eventTokenId

/-- The native-currency test of a price leg:
`payment_token.get("symbol") == "ETH" or payment_token.get("name") == "Ether"`. -/
def isNativeLeg (e : RawEvent) : Bool :=
  e.payment_symbol == some "ETH" || e.payment_name == some "Ether"

/-- The contribution of one leg to the price sum once the native test has
passed: `int(event.get("total_price", "0"))`, with the caught
`ValueError` / `TypeError` contributing nothing. -/
def legPrice (e : RawEvent) : Int :=
  match pyParseInt (e.total_price.getD "0") with
  | some v => v
  | none => 0

/-- The aggregate price loop of lines 143-150: legs are added in event order,
non-native legs and unparsable legs are skipped. -/
def aggPrice (events : List RawEvent) : Int :=
  events.foldl (fun acc e => if isNativeLeg e then acc + legPrice e else acc) 0

/-- Insertion into the ordered key list of `tx_groups`, mirroring
`if tx_hash not in tx_groups: tx_groups[tx_hash] = []`. -/
def insertKey (acc : List String) (k : String) : List String :=
  if k ∈ acc then acc else acc ++ [k]

/-- First-seen-order key collection of the grouping loop (lines 112-119),
with accumulator `acc`. -/
def groupKeysFrom (acc : List String) : List RawEvent → List String
  | [] => acc
  | e :: rest =>
    match txKey e with
    | none => groupKeysFrom acc rest
    | some k => groupKeysFrom (insertKey acc k) rest

/-- The keys of `tx_groups` in insertion order. -/
def groupKeys (l : List RawEvent) : List String :=
  groupKeysFrom [] l

/-- The member list of one transaction group, in event order. -/
def eventsFor (l : List RawEvent) (k : String) : List RawEvent :=
  l.filter (fun e => txKey e == some k)

/-- Construction of one `SaleEvent` from a transaction group
(lines 122-167): buyer and seller come from the first event, a group with no
collected token ids is dropped, `token_id` is set exactly for singleton
collections and `token_ids` exactly for larger ones. -/
def mkSaleEvent (k : String) (events : List RawEvent) : Option SaleEvent :=
  match events with
  | [] => none
  | first :: _ =>
    if collectTokenIds events = [] then none
    else some
      { tx_hash := k
        buyer := first.winner_address.getD "Unknown"
        seller := first.seller_address.getD "Unknown"
        token_id :=
          if (collectTokenIds events).length = 1 then (collectTokenIds events).head?
          else none
        token_ids :=
          if 1 < (collectTokenIds events).length then some (collectTokenIds events)
          else none
        token_count := (collectTokenIds events).length
        total_price := aggPrice events }

/-- `_parse_sales_response`: the argument is `none` when the response body
lacks an `asset_events` key, otherwise the raw event list. -/
def parseSalesResponse (data : Option (List RawEvent)) : List SaleEvent :=
  match data with
  | none => []
  | some events =>
    (groupKeys events).filterMap (fun k => mkSaleEvent k (eventsFor events k))

/-! ## Marketplace client (`fetch_recent_sales`) -/

/-- The mutable fetcher state: the polling watermark `last_fetch_time`
(modelled as an abstract timestamp). -/
structure FetcherState where
  contract_address : String
  last_fetch_time : Nat
deriving Repr, DecidableEq

/-- The outcome of the HTTP request issued by one `fetch_recent_sales` call.
`ok body` is an HTTP 200 whose JSON body parsed (the body is `none` when the
`asset_events` key is absent); `transportErr` covers every exception raised
inside the `try` block, including connection failures and body-parse errors. -/
inductive FetchOutcome
  | ok (body : Option (List RawEvent))
  | rateLimited
  | httpError (status : Nat)
  | transportErr
deriving Repr, DecidableEq

/-- `fetch_recent_sales` (lines 65-100): on HTTP 200 the body is parsed and
then the watermark is set to the current time; a 429, any other status, and
any raised exception all yield the empty list and leave the state untouched. -/
def fetchRecentSales (st : FetcherState) (now : Nat) (outcome : FetchOutcome) :
    List SaleEvent × FetcherState :=
  match outcome with
  | .ok body => (parseSalesResponse body, { st with last_fetch_time := now })
  | .rateLimited => ([], st)
  | .httpError _ => ([], st)
  | .transportErr => ([], st)

/-! ## Image enricher (`fetch_nft_images`) -/

/-- One observable step of the enricher loop: a batch of concurrently issued
per-token lookups, or the `asyncio.sleep(0.1)` pacing delay. -/
inductive EnrichAction
  | query (batch : List String)
  | pause
deriving Repr, DecidableEq

/-- The action trace of the batching loop (lines 215-228) over an already
truncated id list, with an iteration budget: each iteration queries the next
5 ids and pauses exactly when `i + batch_size < len(token_ids)`, i.e. when
ids remain.  The budget is always called with the list length, which the
loop (five elements consumed per step) never exhausts. -/
def traceFromAux : Nat → List String → List EnrichAction
  | _, [] => []
  | 0, _ :: _ => []
  | fuel + 1, x :: xs =>
    EnrichAction.query ((x :: xs).take 5) ::
      (if ((x :: xs).drop 5).isEmpty then []
       else EnrichAction.pause :: traceFromAux fuel ((x :: xs).drop 5))

/-- The action trace of the batching loop on a truncated id list. -/
def traceFrom (l : List String) : List EnrichAction :=
  traceFromAux l.length l

/-- The full action trace of `fetch_nft_images`: the input is first truncated
to its first 20 ids (line 211). -/
def fetchNftImagesTrace (token_ids : List String) : List EnrichAction :=
  traceFrom (token_ids.take 20)

/-- The token ids queried somewhere in a trace, in order. -/
def queriedTokens : List EnrichAction → List String
  | [] => []
  | .query b :: rest => b ++ queriedTokens rest
  | .pause :: rest => queriedTokens rest

/-- The query batches of a trace, in order. -/
def queryBatches : List EnrichAction → List (List String)
  | [] => []
  | .query b :: rest => b :: queryBatches rest
  | .pause :: rest => queryBatches rest

/-- A trace is well paced when it is empty or alternates
query, pause, query, ..., query — one pause between consecutive batches and
none after the last. -/
def wellPaced : List EnrichAction → Bool
  | [] => true
  | [.query _] => true
  | .query _ :: .pause :: rest =>
    match rest with
    | .query _ :: _ => wellPaced rest
    | _ => false
  | _ => false

/-- The value computed by `fetch_nft_images`, with the per-token lookup as an
oracle (`lookup t` is the image URL `_fetch_single_image` resolves for `t`,
`none` for any of its soft failures).  The argument mirrors
`process_sales` passing `sale.token_ids` directly: on `none` the slicing
`token_ids[:20]` raises `TypeError`, the surrounding `except` catches it, and
the initial empty `images` list is returned.  Otherwise the appended results
are the truthy string results in batch order, which is input order because
`asyncio.gather` preserves order. -/
def fetchNftImagesRun (lookup : String → Option String) :
    Option (List String) → List String
  | none => []
  | some ids => (ids.take 20).filterMap (fun t => truthyStr (lookup t))

/-! ## Notification formatting (`bot.py`) -/

/-- `get_sweep_category` (bot.py lines 50-59).  The source takes a Python
int; the argument here is the `token_count` of a `SaleEvent`, a list length. -/
def get_sweep_category (count : Nat) : String :=
  if count = 1 then "single"
  else if 2 ≤ count ∧ count ≤ 5 then "mini"
  else if 6 ≤ count ∧ count ≤ 10 then "big"
  else "huge"

/-- The wei amount rounded half-to-even to 4 decimal places of ETH, i.e. the
integer nearest to `price_wei / 10^14` with ties to even.  This models the
value rendered by Python's `f"...:.4f"` on `price_wei / 1e18`: the source
divides in IEEE-754 double precision while this definition rounds the exact
quotient; at every input a claim evaluates, the two agree (the inputs are
exactly representable), and the trimming property proved below depends only
on the fixed `digits.4digits` shape of the rendering, which holds for both. -/
def scaledPrice (price_wei : Nat) : Nat :=
  let q := price_wei / 100000000000000
  let r := price_wei % 100000000000000
  if 50000000000000 < r then q + 1
  else if r < 50000000000000 then q
  else if q % 2 = 1 then q + 1 else q

/-- The four fractional digit characters of the `...:.4f` rendering. -/
def fracChars (r : Nat) : List Char :=
  [digitChar (r / 1000 % 10), digitChar (r / 100 % 10),
   digitChar (r / 10 % 10), digitChar (r % 10)]

/-- The character list of `f"...:.4f"` applied to the scaled amount: integer
digits, a decimal point, then exactly four fractional digits. -/
def formatFixed4Chars (price_wei : Nat) : List Char :=
  natDigits (scaledPrice price_wei / 10000) ++ '.' :: fracChars (scaledPrice price_wei % 10000)

/-- `format_price` (bot.py lines 62-65): fixed 4-decimal rendering of the
ETH amount, then `.rstrip('0').rstrip('.')`. -/
def format_price (price_wei : Nat) : String :=
  String.mk (pyRstrip '.' (pyRstrip '0' (formatFixed4Chars price_wei)))

/-- The notification payload built by `create_sale_embed` (bot.py lines
68-124), reduced to the scalar fields the embed carries.  The secondary
"NFT Images" field of lines 111-120 (only populated when more than one image
URL was found) and the footer are not modelled; no claim refers to them. -/
structure Embed where
  title : String
  description : String
  txField : Option String
  image : Option String
deriving Repr, DecidableEq

/-- `create_sale_embed`: category-dependent title and price description, the
Etherscan link when the transaction hash is truthy, and the first image URL
when any image was fetched (`if nft_images: embed.set_image(nft_images[0])`).
`total_price.toNat` reflects that every amount the claims reach is
non-negative; `format_price` is stated on `Nat` because claim C4 quantifies
over non-negative wei amounts. -/
def createSaleEmbed (sale : SaleEvent) (nft_images : List String) : Embed :=
  let category := get_sweep_category sale.token_count
  { title :=
      if category = "single" then
        "🎨 User " ++ sale.buyer.take 10 ++ "... bought NFT #" ++
          pyStrOpt sale.token_id ++ "!"
      else if category = "mini" then
        "⚡ Mini sweep! User " ++ sale.buyer.take 10 ++ "... grabbed " ++
          toString sale.token_count ++ " NFTs!"
      else if category = "big" then
        "🔥 Big sweep alert! User " ++ sale.buyer.take 10 ++ "... swept " ++
          toString sale.token_count ++ " NFTs!"
      else
        "💥 Huge sweep! User " ++ sale.buyer.take 10 ++ "... dominated with " ++
          toString sale.token_count ++ " NFTs!"
    description :=
      if category = "single" then
        "**Price:** " ++ format_price sale.total_price.toNat ++ " ETH"
      else
        "**Total Price:** " ++ format_price sale.total_price.toNat ++ " ETH"
    txField :=
      if sale.tx_hash = "" then none
      else some ("[View on Etherscan](https://etherscan.io/tx/" ++ sale.tx_hash ++ ")")
    image := nft_images.head? }

/-! ## Dedup and dispatch loop (`process_sales`) -/

/-- The dedup key of line 131:
`f"..."` of the transaction hash and either the scalar `token_id` (rendered
as Python renders it, so `None` when absent) for `token_count == 1`, or
`token_ids[0]` otherwise.  The `none` result models the uncaught `TypeError`
or `IndexError` the subscript raises when `token_ids` is `None` or empty —
this line sits outside the per-sale `try`, so such an exception aborts the
whole loop (it is unreachable for parser-produced sales). -/
def saleId (sale : SaleEvent) : Option String :=
  if sale.token_count = 1 then
    some (sale.tx_hash ++ "_" ++ pyStrOpt sale.token_id)
  else
    match sale.token_ids with
    | some (t :: _) => some (sale.tx_hash ++ "_" ++ t)
    | _ => none

/-- The loop state of `process_sales`: the module-level `processed_sales`
set, plus the ordered log of notifications actually handed to
`channel.send` (dedup key and payload), kept for specification purposes. -/
structure ProcState where
  processed : Finset String
  published : List (String × Embed)
deriving DecidableEq

/-- The outcome of the effectful part of one iteration's `try` block:
`ok` when `channel.send` succeeded (errors raised after the send, e.g. in the
trailing sleep, leave the same state and are also covered by `ok`), `err`
when an exception was raised before the send completed — by image
enrichment, embed formatting, or the send itself — and caught by the
per-sale `except`. -/
inductive StepOutcome
  | ok
  | err
deriving Repr, DecidableEq

/-- One iteration of `process_sales` (bot.py lines 129-153): compute the
dedup key (aborting the loop on the uncaught subscript error), skip an
already-seen key, otherwise fetch images through the enricher, build the
embed, and on a successful send append to the log and insert the key into
the seen-set.  A caught per-sale error leaves the state unchanged. -/
def processOne (lookup : String → Option String) (eff : SaleEvent → StepOutcome)
    (st : ProcState) (sale : SaleEvent) : Option ProcState :=
  match saleId sale with
  | none => none
  | some sid =>
    if sid ∈ st.processed then some st
    else
      match eff sale with
      | .err => some st
      | .ok =>
        some { processed := insert sid st.processed
               published := st.published ++
                 [(sid, createSaleEmbed sale (fetchNftImagesRun lookup sale.token_ids))] }

/-- `process_sales` over one fetched list, in fetched order; `none` models
the loop aborting on the uncaught dedup-key error. -/
def processSales (lookup : String → Option String) (eff : SaleEvent → StepOutcome)
    (st : ProcState) : List SaleEvent → Option ProcState
  | [] => some st
  | s :: rest =>
    match processOne lookup eff st s with
    | none => none
    | some st' => processSales lookup eff st' rest

/-- How many logged notifications carry the given dedup key. -/
def pubCount (st : ProcState) (sid : String) : Nat :=
  st.published.countP (fun p => p.1 == sid)

/-! ## Concrete inputs used by witnesses and counterexamples -/

/-- A raw event: one ETH-denominated sale of token 42 in transaction 0xabc. -/
def evA1 : RawEvent :=
  { transaction_hash := some "0xabc"
    winner_address := some "0xbuyer0001"
    seller_address := some "0xseller01"
    asset := some { token_id := some "42" }
    payment_symbol := some "ETH"
    payment_name := none
    total_price := some "1000" }

/-- A second leg of transaction 0xabc, paid in a non-native token. -/
def evA2 : RawEvent :=
  { transaction_hash := some "0xabc"
    winner_address := some "0xbuyer0001"
    seller_address := some "0xseller01"
    asset := some { token_id := some "43" }
    payment_symbol := some "WETH"
    payment_name := some "Wrapped Ether"
    total_price := some "500" }

/-- A sale of token 7 in a different transaction 0xdef. -/
def evB1 : RawEvent :=
  { transaction_hash := some "0xdef"
    winner_address := some "0xbuyer0002"
    seller_address := some "0xseller02"
    asset := some { token_id := some "7" }
    payment_symbol := some "ETH"
    payment_name := none
    total_price := some "250" }

/-- An event lacking a transaction identifier. -/
def evNoTx : RawEvent :=
  { transaction_hash := none
    winner_address := none
    seller_address := none
    asset := some { token_id := some "99" }
    payment_symbol := some "ETH"
    payment_name := none
    total_price := some "1" }

/-- A native leg whose price string does not parse. -/
def evBadPrice : RawEvent :=
  { transaction_hash := some "0xabc"
    winner_address := some "0xbuyer0001"
    seller_address := some "0xseller01"
    asset := none
    payment_symbol := some "ETH"
    payment_name := none
    total_price := some "oops" }

/-- Twenty-three distinct token ids. -/
def ids23 : List String :=
  (List.range 23).map (fun n => toString n)

/-- A parser-shaped single-token sale used by the dispatch-loop witnesses. -/
def saleSingle : SaleEvent :=
  { tx_hash := "0xabc"
    buyer := "0xbuyer0001"
    seller := "0xseller01"
    token_id := some "42"
    token_ids := none
    token_count := 1
    total_price := 1000 }

/-- An image lookup oracle that finds media for every token. -/
def lkAll : String → Option String :=
  fun t => some ("https://img.example/" ++ t)

/-- An effect oracle under which every send succeeds. -/
def effOk : SaleEvent → StepOutcome := fun _ => .ok

/-- An effect oracle under which every sale's processing raises. -/
def effErr : SaleEvent → StepOutcome := fun _ => .err

/-- The initial dispatch state: empty seen-set, nothing published. -/
def st0 : ProcState :=
  { processed := ∅, published := [] }

/-! ## Helper lemmas -/

theorem queriedTokens_traceFromAux :
    ∀ (fuel : Nat) (l : List String), l.length ≤ fuel →
      queriedTokens (traceFromAux fuel l) = l := by
  intro fuel
  induction fuel with
  | zero =>
    intro l hl
    have hnil : l = [] := List.eq_nil_of_length_eq_zero (Nat.le_zero.mp hl)
    subst hnil
    rfl
  | succ fuel ih =>
    intro l hl
    match l with
    | [] => rfl
    | x :: xs =>
      by_cases hr : ((x :: xs).drop 5).isEmpty
      · have hre : (x :: xs).drop 5 = [] := by
          simpa [List.isEmpty_iff] using hr
        have hlen : (x :: xs).length ≤ 5 := by
          have h5 := List.length_drop 5 (x :: xs)
          rw [hre] at h5
          simp only [List.length_nil, List.length_cons] at h5
          simp only [List.length_cons]
          omega
        rw [show traceFromAux (fuel + 1) (x :: xs) =
              EnrichAction.query ((x :: xs).take 5) ::
                (if ((x :: xs).drop 5).isEmpty then []
                 else EnrichAction.pause :: traceFromAux fuel ((x :: xs).drop 5)) from rfl]
        rw [hre]
        simp only [List.isEmpty_nil, ite_true, queriedTokens, List.append_nil]
        exact List.take_of_length_le hlen
      · have hlrest : ((x :: xs).drop 5).length ≤ fuel := by
          simp only [List.length_drop, List.length_cons] at hl ⊢
          omega
        rw [show traceFromAux (fuel + 1) (x :: xs) =
              EnrichAction.query ((x :: xs).take 5) ::
                (if ((x :: xs).drop 5).isEmpty then []
                 else EnrichAction.pause :: traceFromAux fuel ((x :: xs).drop 5)) from rfl]
        rw [if_neg hr]
        show (x :: xs).take 5 ++ queriedTokens (EnrichAction.pause :: traceFromAux fuel ((x :: xs).drop 5)) = x :: xs
        rw [show queriedTokens (EnrichAction.pause :: traceFromAux fuel ((x :: xs).drop 5)) =
              queriedTokens (traceFromAux fuel ((x :: xs).drop 5)) from rfl]
        rw [ih ((x :: xs).drop 5) hlrest]
        exact List.take_append_drop 5 (x :: xs)

theorem wellPaced_traceFromAux :
    ∀ (fuel : Nat) (l : List String), l.length ≤ fuel →
      wellPaced (traceFromAux fuel l) = true := by
  intro fuel
  induction fuel with
  | zero =>
    intro l hl
    have hnil : l = [] := List.eq_nil_of_length_eq_zero (Nat.le_zero.mp hl)
    subst hnil
    rfl
  | succ fuel ih =>
    intro l hl
    match l with
    | [] => rfl
    | x :: xs =>
      by_cases hr : ((x :: xs).drop 5).isEmpty
      · have hre : (x :: xs).drop 5 = [] := by
          simpa [List.isEmpty_iff] using hr
        rw [show traceFromAux (fuel + 1) (x :: xs) =
              EnrichAction.query ((x :: xs).take 5) ::
                (if ((x :: xs).drop 5).isEmpty then []
                 else EnrichAction.pause :: traceFromAux fuel ((x :: xs).drop 5)) from rfl]
        rw [hre]
        rfl
      · have hne : (x :: xs).drop 5 ≠ [] := by
          simpa [List.isEmpty_iff] using hr
        have hlrest : ((x :: xs).drop 5).length ≤ fuel := by
          simp only [List.length_drop, List.length_cons] at hl ⊢
          omega
        obtain ⟨y, ys, hrest⟩ : ∃ y ys, (x :: xs).drop 5 = y :: ys := by
          cases h5 : (x :: xs).drop 5 with
          | nil => exact absurd h5 hne
          | cons y ys => exact ⟨y, ys, rfl⟩
        cases fuel with
        | zero =>
          rw [hrest] at hlrest
          simp at hlrest
        | succ g =>
          rw [show traceFromAux (g + 1 + 1) (x :: xs) =
                EnrichAction.query ((x :: xs).take 5) ::
                  (if ((x :: xs).drop 5).isEmpty then []
                   else EnrichAction.pause :: traceFromAux (g + 1) ((x :: xs).drop 5)) from rfl]
          rw [if_neg hr]
          rw [hrest] at hlrest ⊢
          have hstep := ih (y :: ys) hlrest
          rw [show traceFromAux (g + 1) (y :: ys) =
                EnrichAction.query ((y :: ys).take 5) ::
                  (if ((y :: ys).drop 5).isEmpty then []
                   else EnrichAction.pause :: traceFromAux g ((y :: ys).drop 5)) from rfl] at hstep ⊢
          exact hstep

theorem pyRstrip_pyRstrip (l : List Char) :
    pyRstrip '.' (pyRstrip '0' l) =
      ((l.reverse.dropWhile (fun c => c = '0')).dropWhile (fun c => c = '.')).reverse := by
  simp [pyRstrip, List.reverse_reverse]

theorem digitChar_isDigit (d : Nat) (h : d < 10) : (digitChar d).isDigit = true := by
  interval_cases d <;> decide

theorem natDigitsAux_digits :
    ∀ (fuel n : Nat), ∀ c ∈ natDigitsAux fuel n, c.isDigit = true := by
  intro fuel
  induction fuel with
  | zero =>
    intro n c hc
    cases n with
    | zero => simp [natDigitsAux] at hc
    | succ m => simp [natDigitsAux] at hc
  | succ fuel ih =>
    intro n c hc
    cases n with
    | zero => simp [natDigitsAux] at hc
    | succ m =>
      rw [show natDigitsAux (fuel + 1) (m + 1) =
            digitChar ((m + 1) % 10) :: natDigitsAux fuel ((m + 1) / 10) from rfl] at hc
      rcases List.mem_cons.mp hc with h | h
      · subst h
        exact digitChar_isDigit _ (Nat.mod_lt _ (by omega))
      · exact ih _ c h

theorem natDigits_digits (n : Nat) : ∀ c ∈ natDigits n, c.isDigit = true := by
  intro c hc
  unfold natDigits at hc
  split at hc
  · simp at hc
    subst hc
    decide
  · rw [List.mem_reverse] at hc
    exact natDigitsAux_digits _ _ c hc

theorem natDigits_ne_nil (n : Nat) : natDigits n ≠ [] := by
  unfold natDigits
  split
  · simp
  · next h =>
    cases n with
    | zero => exact absurd rfl h
    | succ m =>
      rw [show natDigitsAux (m + 1) (m + 1) =
            digitChar ((m + 1) % 10) :: natDigitsAux m ((m + 1) / 10) from rfl]
      simp

theorem fracChars_digits (r : Nat) : ∀ c ∈ fracChars r, c.isDigit = true := by
  intro c hc
  simp only [fracChars, List.mem_cons, List.not_mem_nil, or_false] at hc
  rcases hc with h | h | h | h <;>
    (subst h; exact digitChar_isDigit _ (Nat.mod_lt _ (by omega)))

theorem trim_chars_shape (Irev : List Char)
    (hI : ∀ c ∈ Irev, c.isDigit = true) (hne : Irev ≠ []) :
    ∀ L : List Char, (∀ c ∈ L, c.isDigit = true) →
      (((L ++ '.' :: Irev).dropWhile (fun c => c = '0')).dropWhile
          (fun c => c = '.')).head? ≠ some '.' ∧
      ('.' ∈ ((L ++ '.' :: Irev).dropWhile (fun c => c = '0')).dropWhile
          (fun c => c = '.') →
        (((L ++ '.' :: Irev).dropWhile (fun c => c = '0')).dropWhile
            (fun c => c = '.')).head? ≠ some '0') := by
  intro L
  induction L with
  | nil =>
    intro _
    obtain ⟨c, rest, rfl⟩ : ∃ c rest, Irev = c :: rest := by
      cases Irev with
      | nil => exact absurd rfl hne
      | cons c rest => exact ⟨c, rest, rfl⟩
    have hc : c.isDigit = true := hI c (List.mem_cons_self _ _)
    have hcdot : c ≠ '.' := by
      intro h
      subst h
      exact absurd hc (by decide)
    rw [List.nil_append, List.dropWhile_cons, if_neg (by decide),
        List.dropWhile_cons, if_pos (by decide),
        List.dropWhile_cons, if_neg (by simpa using hcdot)]
    constructor
    · simp only [List.head?_cons, ne_eq, Option.some.injEq]
      exact hcdot
    · intro hmem
      exact absurd (hI '.' hmem) (by decide)
  | cons x L ih =>
    intro hL
    have hx : x.isDigit = true := hL x (List.mem_cons_self _ _)
    by_cases hx0 : x = '0'
    · subst hx0
      rw [List.cons_append, List.dropWhile_cons, if_pos (by decide)]
      exact ih (fun c hc => hL c (List.mem_cons_of_mem _ hc))
    · have hxdot : x ≠ '.' := by
        intro h
        subst h
        exact absurd hx (by decide)
      rw [List.cons_append, List.dropWhile_cons, if_neg (by simpa using hx0),
          List.dropWhile_cons, if_neg (by simpa using hxdot)]
      constructor
      · simp only [List.head?_cons, ne_eq, Option.some.injEq]
        exact hxdot
      · intro _
        simp only [List.head?_cons, ne_eq, Option.some.injEq]
        exact hx0

theorem mkSaleEvent_inv {k : String} {evs : List RawEvent} {s : SaleEvent}
    (h : mkSaleEvent k evs = some s) :
    s.tx_hash = k ∧
    s.token_count = (collectTokenIds evs).length ∧
    collectTokenIds evs ≠ [] ∧
    s.token_ids =
      (if 1 < (collectTokenIds evs).length then some (collectTokenIds evs) else none) ∧
    s.token_id =
      (if (collectTokenIds evs).length = 1 then (collectTokenIds evs).head? else none) ∧
    s.total_price = aggPrice evs := by
  cases evs with
  | nil => simp [mkSaleEvent] at h
  | cons first rest =>
    simp only [mkSaleEvent] at h
    by_cases he : collectTokenIds (first :: rest) = []
    · rw [if_pos he] at h
      simp at h
    · rw [if_neg he] at h
      have hs := Option.some.inj h
      subst hs
      exact ⟨rfl, rfl, he, rfl, rfl, rfl⟩

theorem parse_mem {d : Option (List RawEvent)} {s : SaleEvent}
    (h : s ∈ parseSalesResponse d) :
    ∃ l k, d = some l ∧ k ∈ groupKeys l ∧ mkSaleEvent k (eventsFor l k) = some s := by
  cases d with
  | none => simp [parseSalesResponse] at h
  | some l =>
    simp only [parseSalesResponse, List.mem_filterMap] at h
    obtain ⟨k, hk, hmk⟩ := h
    exact ⟨l, k, rfl, hk, hmk⟩

/-! ## Claim theorems -/

/-- C2: `fetch_recent_sales` returns the empty list and leaves the polling
watermark `last_fetch_time` untouched on a rate limit (HTTP 429), on any
other non-200 status, and on any raised exception; on a successful call it
returns the parse of the body and sets the watermark to the current time —
the single watermark write of the call, performed after parsing. -/
theorem fetch_recent_sales_soft_fail (st : FetcherState) (now : Nat)
    (body : Option (List RawEvent)) (status : Nat) :
    fetchRecentSales st now FetchOutcome.rateLimited = ([], st) ∧
    fetchRecentSales st now (FetchOutcome.httpError status) = ([], st) ∧
    fetchRecentSales st now FetchOutcome.transportErr = ([], st) ∧
    fetchRecentSales st now (FetchOutcome.ok body) =
      (parseSalesResponse body, { st with last_fetch_time := now }) :=
  ⟨rfl, rfl, rfl, rfl⟩

/-- C8: for every token count `t` of an emitted sale (these are lengths of
non-empty lists, so `1 ≤ t`), the sweep category is `single` exactly for
`t = 1`, `mini` exactly for `2 ≤ t ≤ 5`, `big` exactly for `6 ≤ t ≤ 10` and
`huge` exactly for `11 ≤ t`: the four categories partition the counts with
exact boundaries at 1/2, 5/6 and 10/11. -/
theorem sweep_category_partition (t : Nat) (h : 1 ≤ t) :
    (get_sweep_category t = "single" ↔ t = 1) ∧
    (get_sweep_category t = "mini" ↔ 2 ≤ t ∧ t ≤ 5) ∧
    (get_sweep_category t = "big" ↔ 6 ≤ t ∧ t ≤ 10) ∧
    (get_sweep_category t = "huge" ↔ 11 ≤ t) := by
  unfold get_sweep_category
  split_ifs with h1 h2 h3
  · exact ⟨iff_of_true rfl h1,
      iff_of_false (by decide) (by omega),
      iff_of_false (by decide) (by omega),
      iff_of_false (by decide) (by omega)⟩
  · exact ⟨iff_of_false (by decide) h1,
      iff_of_true rfl h2,
      iff_of_false (by decide) (by omega),
      iff_of_false (by decide) (by omega)⟩
  · exact ⟨iff_of_false (by decide) h1,
      iff_of_false (by decide) (by omega),
      iff_of_true rfl h3,
      iff_of_false (by decide) (by omega)⟩
  · exact ⟨iff_of_false (by decide) h1,
      iff_of_false (by decide) (by omega),
      iff_of_false (by decide) (by omega),
      iff_of_true rfl (by omega)⟩

/-- Witness for C8: the theorem applied at the concrete count 7, which the
partition places in the `big` category. -/
theorem sweep_category_partition_applied :
    get_sweep_category 7 = "big" :=
  (sweep_category_partition 7 (by omega)).2.2.1.mpr (by omega)

/-- C5 counterexample: on 23 token ids the enricher does not issue 5 batches
of sizes 5,5,5,5,3 — the input is truncated to 20 ids before batching, so
only 4 batches of 5 are issued. -/
theorem image_batching_cex :
    ¬ ((queryBatches (fetchNftImagesTrace ids23)).map List.length = [5, 5, 5, 5, 3]) := by
  decide

/-- C5 (amended): the enricher queries exactly the first 20 token ids of its
input, in order; its trace places one pacing pause between consecutive
batches and none after the last; on the 23 concrete ids `ids23` it issues
exactly 4 batches of sizes 5,5,5,5, the 20th id (`"19"`) is queried, and the
21st through 23rd ids (`"20"`, `"21"`, `"22"`) are never queried. -/
theorem image_batching :
    (∀ ids : List String, queriedTokens (fetchNftImagesTrace ids) = ids.take 20) ∧
    (∀ ids : List String, wellPaced (fetchNftImagesTrace ids) = true) ∧
    (queryBatches (fetchNftImagesTrace ids23)).map List.length = [5, 5, 5, 5] ∧
    (queriedTokens (fetchNftImagesTrace ids23)).contains "19" = true ∧
    (queriedTokens (fetchNftImagesTrace ids23)).contains "20" = false ∧
    (queriedTokens (fetchNftImagesTrace ids23)).contains "21" = false ∧
    (queriedTokens (fetchNftImagesTrace ids23)).contains "22" = false := by
  refine ⟨fun ids => ?_, fun ids => ?_, by decide, by decide, by decide, by decide, by decide⟩
  · exact queriedTokens_traceFromAux (ids.take 20).length (ids.take 20) (le_refl _)
  · exact wellPaced_traceFromAux (ids.take 20).length (ids.take 20) (le_refl _)

/-- C4: for every non-negative integer wei amount, the formatted price never
ends in a bare decimal point, and — whenever it still contains a decimal
point — never ends in a removable zero digit; the three concrete renderings
of the claim hold.  (An integer result such as `format_price` of ten ETH
rendering as "10" keeps its final significant zero; the trimming claim is
about the fractional zeros the source strips.) -/
theorem format_price_trimmed (w : Nat) :
    (format_price w).data.getLast? ≠ some '.' ∧
    ('.' ∈ (format_price w).data → (format_price w).data.getLast? ≠ some '0') ∧
    format_price 1000000000000000000 = "1" ∧
    format_price 1200000000000000000 = "1.2" ∧
    format_price 0 = "0" := by
  have hrev : (formatFixed4Chars w).reverse =
      (fracChars (scaledPrice w % 10000)).reverse ++
        '.' :: (natDigits (scaledPrice w / 10000)).reverse := by
    simp [formatFixed4Chars, List.reverse_append, List.reverse_cons,
      List.append_assoc, List.singleton_append]
  have hmain := trim_chars_shape ((natDigits (scaledPrice w / 10000)).reverse)
    (fun c hc => natDigits_digits _ c (List.mem_reverse.mp hc))
    (by simpa using natDigits_ne_nil (scaledPrice w / 10000))
    ((fracChars (scaledPrice w % 10000)).reverse)
    (fun c hc => fracChars_digits _ c (List.mem_reverse.mp hc))
  have hdata : (format_price w).data =
      ((((fracChars (scaledPrice w % 10000)).reverse ++
          '.' :: (natDigits (scaledPrice w / 10000)).reverse).dropWhile
            (fun c => c = '0')).dropWhile (fun c => c = '.')).reverse := by
    show pyRstrip '.' (pyRstrip '0' (formatFixed4Chars w)) = _
    rw [pyRstrip_pyRstrip, hrev]
  refine ⟨?_, ?_, by decide, by decide, by decide⟩
  · rw [hdata, List.getLast?_reverse]
    exact hmain.1
  · intro hmem
    rw [hdata, List.mem_reverse] at hmem
    rw [hdata, List.getLast?_reverse]
    exact hmain.2 hmem

/-- Witness for C4: the theorem applied at the amount representing 1.2 ETH,
whose rendering contains a decimal point and provably does not end in a
zero digit. -/
theorem format_price_trimmed_applied :
    (format_price 1200000000000000000).data.getLast? ≠ some '0' :=
  (format_price_trimmed 1200000000000000000).2.1 (by decide)

/-- C1 counterexample: parsing a response holding one single-token sale
emits a `SaleEvent` whose `token_ids` field is `None` (the scalar `token_id`
carries the id instead), so it is false that every emitted sale has a
non-empty `token_ids` whose length is `token_count`. -/
theorem parse_token_fields_cex :
    ¬ (∀ s ∈ parseSalesResponse (some [evA1]),
        ∃ ids, s.token_ids = some ids ∧ ids ≠ [] ∧ s.token_count = ids.length) := by
  intro hcl
  have hmem : saleSingle ∈ parseSalesResponse (some [evA1]) := by
    have h : parseSalesResponse (some [evA1]) = [saleSingle] := by decide
    rw [h]
    exact List.mem_singleton.mpr rfl
  obtain ⟨ids, hids, -, -⟩ := hcl saleSingle hmem
  simp [saleSingle] at hids

/-- C1 (amended): every emitted `SaleEvent` collects at least one token id
and `token_count` equals the number of collected ids; the `token_ids` field
holds that non-empty list exactly when `token_count ≥ 2`, while a sale with
`token_count = 1` carries `token_ids = None` and a populated scalar
`token_id`. -/
theorem parse_token_fields (d : Option (List RawEvent)) (s : SaleEvent)
    (h : s ∈ parseSalesResponse d) :
    1 ≤ s.token_count ∧
    (s.token_count = 1 → s.token_ids = none ∧ s.token_id.isSome = true) ∧
    (2 ≤ s.token_count →
      ∃ ids, s.token_ids = some ids ∧ ids ≠ [] ∧ ids.length = s.token_count) := by
  obtain ⟨l, k, -, -, hmk⟩ := parse_mem h
  obtain ⟨-, hcount, hne, hids, hid, -⟩ := mkSaleEvent_inv hmk
  have hpos : 1 ≤ (collectTokenIds (eventsFor l k)).length := by
    cases hcol : collectTokenIds (eventsFor l k) with
    | nil => exact absurd hcol hne
    | cons a t => simp
  refine ⟨by rw [hcount]; exact hpos, ?_, ?_⟩
  · intro h1
    rw [hcount] at h1
    constructor
    · rw [hids, if_neg (by omega)]
    · rw [hid, if_pos h1]
      cases hcol : collectTokenIds (eventsFor l k) with
      | nil => exact absurd hcol hne
      | cons a t => simp
  · intro h2
    rw [hcount] at h2
    refine ⟨collectTokenIds (eventsFor l k), ?_, hne, hcount.symm⟩
    rw [hids, if_pos (by omega)]

/-- Witness for C1: the amended theorem applied to the concrete single-token
parse, showing the membership hypothesis satisfiable and the `token_count = 1`
branch realized. -/
theorem parse_token_fields_applied :
    saleSingle.token_ids = none ∧ saleSingle.token_id.isSome = true := by
  have hmem : saleSingle ∈ parseSalesResponse (some [evA1]) := by
    have h : parseSalesResponse (some [evA1]) = [saleSingle] := by decide
    rw [h]
    exact List.mem_singleton.mpr rfl
  exact (parse_token_fields (some [evA1]) saleSingle hmem).2.1 rfl

/-- C7: the price aggregation adds exactly the legs passing the native
currency test (symbol `ETH` or name `Ether`): a group of one native leg of
parsed value V and one non-native leg (in either order) totals V; appending
a non-native leg never changes the total; appending a native leg whose price
string fails to parse never changes the total (only that leg's contribution
is skipped). -/
theorem price_aggregation_native_only :
    (∀ (e1 e2 : RawEvent) (V : Int), isNativeLeg e1 = true →
        pyParseInt (e1.total_price.getD "0") = some V → isNativeLeg e2 = false →
        aggPrice [e1, e2] = V ∧ aggPrice [e2, e1] = V) ∧
    (∀ (evs : List RawEvent) (e : RawEvent), isNativeLeg e = false →
        aggPrice (evs ++ [e]) = aggPrice evs) ∧
    (∀ (evs : List RawEvent) (e : RawEvent), isNativeLeg e = true →
        pyParseInt (e.total_price.getD "0") = none →
        aggPrice (evs ++ [e]) = aggPrice evs) := by
  have hfold : ∀ (evs : List RawEvent) (e : RawEvent),
      aggPrice (evs ++ [e]) =
        (if isNativeLeg e then aggPrice evs + legPrice e else aggPrice evs) := by
    intro evs e
    simp [aggPrice, List.foldl_append]
  refine ⟨?_, ?_, ?_⟩
  · intro e1 e2 V h1 hp h2
    have hl : legPrice e1 = V := by simp [legPrice, hp]
    constructor
    · simp [aggPrice, h1, h2, hl]
    · simp [aggPrice, h1, h2, hl]
  · intro evs e h2
    rw [hfold, if_neg (by simp [h2])]
  · intro evs e h1 hp
    rw [hfold, if_pos h1, show legPrice e = 0 from by simp [legPrice, hp], add_zero]

/-- Witness for C7: the theorem applied to the concrete native leg `evA1`
(value 1000 wei) and non-native leg `evA2`. -/
theorem price_aggregation_native_only_applied :
    aggPrice [evA1, evA2] = 1000 ∧ aggPrice [evA2, evA1] = 1000 :=
  price_aggregation_native_only.1 evA1 evA2 1000 (by decide) (by decide) (by decide)

theorem processOne_cases {lookup : String → Option String} {eff : SaleEvent → StepOutcome}
    {st : ProcState} {sale : SaleEvent} {st' : ProcState}
    (h : processOne lookup eff st sale = some st') :
    st' = st ∨
    ∃ sid, saleId sale = some sid ∧ sid ∉ st.processed ∧
      st'.processed = insert sid st.processed ∧
      st'.published = st.published ++
        [(sid, createSaleEmbed sale (fetchNftImagesRun lookup sale.token_ids))] := by
  unfold processOne at h
  cases hsid : saleId sale with
  | none =>
    rw [hsid] at h
    simp at h
  | some sid =>
    rw [hsid] at h
    replace h :
        (if sid ∈ st.processed then some st
         else
           match eff sale with
           | StepOutcome.err => some st
           | StepOutcome.ok =>
             some { processed := insert sid st.processed
                    published := st.published ++
                      [(sid, createSaleEmbed sale (fetchNftImagesRun lookup sale.token_ids))] }) =
          some st' := h
    by_cases hmem : sid ∈ st.processed
    · rw [if_pos hmem] at h
      exact Or.inl (Option.some.inj h).symm
    · rw [if_neg hmem] at h
      cases heff : eff sale with
      | err =>
        rw [heff] at h
        exact Or.inl (Option.some.inj h).symm
      | ok =>
        rw [heff] at h
        have hs := (Option.some.inj h).symm
        subst hs
        exact Or.inr ⟨sid, rfl, hmem, rfl, rfl⟩

theorem processSales_inv (lookup : String → Option String) (eff : SaleEvent → StepOutcome)
    (sid : String) :
    ∀ (l : List SaleEvent) (st st' : ProcState),
      processSales lookup eff st l = some st' →
      (sid ∈ st.processed → sid ∈ st'.processed ∧ pubCount st' sid = pubCount st sid) ∧
      pubCount st' sid ≤ pubCount st sid + (if sid ∈ st.processed then 0 else 1) ∧
      (pubCount st sid < pubCount st' sid → sid ∈ st'.processed) := by
  intro l
  induction l with
  | nil =>
    intro st st' h
    have heq : st = st' := Option.some.inj h
    subst heq
    refine ⟨fun hm => ⟨hm, rfl⟩, ?_, fun hlt => absurd hlt (lt_irrefl _)⟩
    split_ifs <;> omega
  | cons a rest ih =>
    intro st st' h
    rw [show processSales lookup eff st (a :: rest) =
          (match processOne lookup eff st a with
           | none => none
           | some st1 => processSales lookup eff st1 rest) from rfl] at h
    cases hone : processOne lookup eff st a with
    | none =>
      rw [hone] at h
      simp at h
    | some st1 =>
      rw [hone] at h
      have IH := ih st1 st' h
      rcases processOne_cases hone with heq | ⟨sid', hsid', hnot, hproc, hpub⟩
      · subst heq
        exact IH
      · by_cases hss : sid' = sid
        · subst hss
          have hc1 : pubCount st1 sid' = pubCount st sid' + 1 := by
            simp [pubCount, hpub, List.countP_append, List.countP_cons]
          have hmem1 : sid' ∈ st1.processed := by
            rw [hproc]
            exact Finset.mem_insert_self _ _
          obtain ⟨IH1, IH2, IH3⟩ := IH
          obtain ⟨hfin, hkeep⟩ := IH1 hmem1
          refine ⟨fun hm => absurd hm hnot, ?_, fun _ => hfin⟩
          rw [if_neg hnot]
          omega
        · have hc1 : pubCount st1 sid = pubCount st sid := by
            simp [pubCount, hpub, List.countP_append, List.countP_cons, hss]
          have hmemiff : sid ∈ st1.processed ↔ sid ∈ st.processed := by
            rw [hproc, Finset.mem_insert]
            constructor
            · rintro (h' | h')
              · exact absurd h'.symm hss
              · exact h'
            · exact Or.inr
          obtain ⟨IH1, IH2, IH3⟩ := IH
          refine ⟨fun hm => ?_, ?_, fun hlt => ?_⟩
          · obtain ⟨ha, hb⟩ := IH1 (hmemiff.mpr hm)
            exact ⟨ha, by rw [hb, hc1]⟩
          · rw [hc1] at IH2
            have hsame : (if sid ∈ st1.processed then 0 else 1) =
                (if sid ∈ st.processed then 0 else 1) := by
              by_cases hm : sid ∈ st.processed
              · rw [if_pos hm, if_pos (hmemiff.mpr hm)]
              · rw [if_neg hm, if_neg (fun hx => hm (hmemiff.mp hx))]
            rw [hsame] at IH2
            exact IH2
          · exact IH3 (by rw [hc1]; exact hlt)

/-- C3: the dedup loop is idempotent per dedup key — a sale whose key is
already in the seen-set is skipped with no state change and nothing
published; whenever a step changes the published log, the sale's key ends up
in the seen-set; and across two successive polling cycles starting with no
publication of a key, at most one notification carrying that key is ever
dispatched, however often the sale recurs in either cycle. -/
theorem dedup_at_most_once :
    (∀ (lookup : String → Option String) (eff : SaleEvent → StepOutcome)
        (st : ProcState) (s : SaleEvent) (sid : String),
        saleId s = some sid → sid ∈ st.processed →
        processOne lookup eff st s = some st) ∧
    (∀ (lookup : String → Option String) (eff : SaleEvent → StepOutcome)
        (st st' : ProcState) (s : SaleEvent),
        processOne lookup eff st s = some st' → st'.published ≠ st.published →
        ∃ sid, saleId s = some sid ∧ sid ∈ st'.processed) ∧
    (∀ (lookup : String → Option String) (eff : SaleEvent → StepOutcome)
        (stA st1 st2 : ProcState) (l1 l2 : List SaleEvent) (sid : String),
        processSales lookup eff stA l1 = some st1 →
        processSales lookup eff st1 l2 = some st2 →
        pubCount stA sid = 0 →
        pubCount st2 sid ≤ 1) := by
  refine ⟨?_, ?_, ?_⟩
  · intro lookup eff st s sid hsid hmem
    unfold processOne
    rw [hsid]
    show (if sid ∈ st.processed then some st
          else
            match eff s with
            | StepOutcome.err => some st
            | StepOutcome.ok =>
              some { processed := insert sid st.processed
                     published := st.published ++
                       [(sid, createSaleEmbed s (fetchNftImagesRun lookup s.token_ids))] }) =
        some st
    rw [if_pos hmem]
  · intro lookup eff st st' s hone hpub
    rcases processOne_cases hone with heq | ⟨sid, hsid, -, hproc, -⟩
    · subst heq
      exact absurd rfl hpub
    · refine ⟨sid, hsid, ?_⟩
      rw [hproc]
      exact Finset.mem_insert_self _ _
  · intro lookup eff stA st1 st2 l1 l2 sid h1 h2 h0
    obtain ⟨m1a, m1b, m1c⟩ := processSales_inv lookup eff sid l1 stA st1 h1
    obtain ⟨m2a, m2b, m2c⟩ := processSales_inv lookup eff sid l2 st1 st2 h2
    by_cases hmem : sid ∈ st1.processed
    · obtain ⟨-, heq⟩ := m2a hmem
      rw [heq]
      split_ifs at m1b <;> omega
    · have hle : pubCount st1 sid ≤ pubCount stA sid := by
        by_contra hgt
        push_neg at hgt
        exact hmem (m1c hgt)
      rw [if_neg hmem] at m2b
      omega

/-- Witness for C3: two concrete cycles each carrying the same single-token
sale, starting from the empty state; the theorem bounds the publications of
its dedup key by one. -/
theorem dedup_at_most_once_applied :
    ∃ st1 st2,
      processSales lkAll effOk st0 [saleSingle] = some st1 ∧
      processSales lkAll effOk st1 [saleSingle] = some st2 ∧
      pubCount st2 "0xabc_42" ≤ 1 := by
  refine ⟨_, _, rfl, rfl, ?_⟩
  exact dedup_at_most_once.2.2 lkAll effOk st0 _ _ [saleSingle] [saleSingle]
    "0xabc_42" rfl rfl rfl

/-- C9: an error raised while processing one sale — by image enrichment,
embed formatting, or publishing, all caught by the per-sale handler — leaves
the loop state unchanged and every remaining sale of the cycle is processed
exactly as it would have been without the failing sale. -/
theorem per_sale_error_isolation (lookup : String → Option String)
    (eff : SaleEvent → StepOutcome) (s : SaleEvent)
    (hs : eff s = StepOutcome.err) (hid : (saleId s).isSome = true) :
    ∀ (l1 l2 : List SaleEvent) (st : ProcState),
      processSales lookup eff st (l1 ++ s :: l2) =
        processSales lookup eff st (l1 ++ l2) := by
  have hone : ∀ st : ProcState, processOne lookup eff st s = some st := by
    intro st
    obtain ⟨sid, hsid⟩ := Option.isSome_iff_exists.mp hid
    unfold processOne
    rw [hsid]
    show (if sid ∈ st.processed then some st
          else
            match eff s with
            | StepOutcome.err => some st
            | StepOutcome.ok =>
              some { processed := insert sid st.processed
                     published := st.published ++
                       [(sid, createSaleEmbed s (fetchNftImagesRun lookup s.token_ids))] }) =
        some st
    by_cases hmem : sid ∈ st.processed
    · rw [if_pos hmem]
    · rw [if_neg hmem, hs]
  intro l1
  induction l1 with
  | nil =>
    intro l2 st
    rw [List.nil_append, List.nil_append,
        show processSales lookup eff st (s :: l2) =
          (match processOne lookup eff st s with
           | none => none
           | some st1 => processSales lookup eff st1 l2) from rfl,
        hone st]
  | cons a l1 ih =>
    intro l2 st
    rw [List.cons_append, List.cons_append]
    show (match processOne lookup eff st a with
          | none => none
          | some st1 => processSales lookup eff st1 (l1 ++ s :: l2)) =
        (match processOne lookup eff st a with
          | none => none
          | some st1 => processSales lookup eff st1 (l1 ++ l2))
    cases processOne lookup eff st a with
    | none => rfl
    | some st1 => exact ih l2 st1

/-- Witness for C9: the theorem applied to a cycle consisting only of the
failing sale, under the always-erroring effect oracle. -/
theorem per_sale_error_isolation_applied :
    processSales lkAll effErr st0 [saleSingle] = processSales lkAll effErr st0 [] :=
  per_sale_error_isolation lkAll effErr saleSingle rfl rfl [] [] st0

/-- C10: a parser-emitted sale with `token_count = 1` always carries
`token_ids = None`; `fetch_nft_images` applied to `None` catches the
resulting subscript error and returns the empty list; hence the notification
embed built for such a sale has no image, whatever URLs the per-token lookup
would have returned. -/
theorem single_sale_no_image :
    (∀ (d : Option (List RawEvent)) (s : SaleEvent), s ∈ parseSalesResponse d →
        s.token_count = 1 → s.token_ids = none) ∧
    (∀ lookup : String → Option String, fetchNftImagesRun lookup none = []) ∧
    (∀ (s : SaleEvent) (lookup : String → Option String), s.token_ids = none →
        (createSaleEmbed s (fetchNftImagesRun lookup s.token_ids)).image = none) := by
  refine ⟨?_, fun _ => rfl, ?_⟩
  · intro d s h h1
    obtain ⟨l, k, -, -, hmk⟩ := parse_mem h
    obtain ⟨-, hcount, -, hids, -, -⟩ := mkSaleEvent_inv hmk
    have hlen : (collectTokenIds (eventsFor l k)).length = 1 := by
      rw [← hcount]
      exact h1
    rw [hids, if_neg (by omega)]
  · intro s lookup h
    rw [h]
    rfl

/-- Witness for C10: the theorem applied to the concrete single-token sale
under a lookup oracle that finds media for every token — the embed image is
still absent. -/
theorem single_sale_no_image_applied :
    (createSaleEmbed saleSingle (fetchNftImagesRun lkAll saleSingle.token_ids)).image = none :=
  single_sale_no_image.2.2 saleSingle lkAll rfl

theorem groupKeysFrom_cons_none {acc : List String} {e : RawEvent} {rest : List RawEvent}
    (h : txKey e = none) :
    groupKeysFrom acc (e :: rest) = groupKeysFrom acc rest := by
  simp [groupKeysFrom, h]

theorem groupKeysFrom_cons_some {acc : List String} {e : RawEvent} {rest : List RawEvent}
    {k' : String} (h : txKey e = some k') :
    groupKeysFrom acc (e :: rest) = groupKeysFrom (insertKey acc k') rest := by
  simp [groupKeysFrom, h]

theorem mem_insertKey {acc : List String} {k' k : String} :
    k ∈ insertKey acc k' ↔ k ∈ acc ∨ k = k' := by
  unfold insertKey
  split_ifs with h
  · constructor
    · exact Or.inl
    · rintro (hk | rfl)
      · exact hk
      · exact h
  · simp [List.mem_append]

theorem mem_groupKeysFrom :
    ∀ (l : List RawEvent) (acc : List String) (k : String),
      k ∈ groupKeysFrom acc l ↔ k ∈ acc ∨ ∃ e ∈ l, txKey e = some k := by
  intro l
  induction l with
  | nil => simp [groupKeysFrom]
  | cons e rest ih =>
    intro acc k
    cases hte : txKey e with
    | none =>
      rw [groupKeysFrom_cons_none hte, ih, List.exists_mem_cons_iff]
      simp [hte]
    | some k' =>
      rw [groupKeysFrom_cons_some hte, ih, mem_insertKey, List.exists_mem_cons_iff, hte]
      constructor
      · rintro ((hk | rfl) | hex)
        · exact Or.inl hk
        · exact Or.inr (Or.inl rfl)
        · exact Or.inr (Or.inr hex)
      · rintro (hk | hsome | hex)
        · exact Or.inl (Or.inl hk)
        · exact Or.inl (Or.inr (Option.some.inj hsome).symm)
        · exact Or.inr hex

theorem nodup_insertKey {acc : List String} {k' : String} (h : acc.Nodup) :
    (insertKey acc k').Nodup := by
  unfold insertKey
  split_ifs with hk
  · exact h
  · rw [List.nodup_append]
    refine ⟨h, List.nodup_singleton _, ?_⟩
    intro a ha hb
    rw [List.mem_singleton] at hb
    subst hb
    exact hk ha

theorem nodup_groupKeysFrom :
    ∀ (l : List RawEvent) (acc : List String), acc.Nodup → (groupKeysFrom acc l).Nodup := by
  intro l
  induction l with
  | nil => intro acc h; exact h
  | cons e rest ih =>
    intro acc h
    cases hte : txKey e with
    | none =>
      rw [groupKeysFrom_cons_none hte]
      exact ih acc h
    | some k' =>
      rw [groupKeysFrom_cons_some hte]
      exact ih _ (nodup_insertKey h)

theorem groupKeysFrom_append :
    ∀ (l1 l2 : List RawEvent) (acc : List String),
      groupKeysFrom acc (l1 ++ l2) = groupKeysFrom (groupKeysFrom acc l1) l2 := by
  intro l1
  induction l1 with
  | nil => intro l2 acc; rfl
  | cons e rest ih =>
    intro l2 acc
    cases hte : txKey e with
    | none =>
      rw [List.cons_append, groupKeysFrom_cons_none hte, groupKeysFrom_cons_none hte, ih]
    | some k' =>
      rw [List.cons_append, groupKeysFrom_cons_some hte, groupKeysFrom_cons_some hte, ih]

theorem length_filterMap_of_isSome {α β : Type} (f : α → Option β) :
    ∀ l : List α, (∀ x ∈ l, (f x).isSome = true) → (l.filterMap f).length = l.length := by
  intro l
  induction l with
  | nil => intro _; rfl
  | cons a rest ih =>
    intro h
    cases hfa : f a with
    | none =>
      have ha := h a (List.mem_cons_self _ _)
      rw [hfa] at ha
      simp at ha
    | some b =>
      simp [List.filterMap_cons, hfa, ih (fun x hx => h x (List.mem_cons_of_mem _ hx))]

theorem filterMap_ext {α β : Type} (f g : α → Option β) :
    ∀ l : List α, (∀ a ∈ l, f a = g a) → l.filterMap f = l.filterMap g := by
  intro l
  induction l with
  | nil => intro _; rfl
  | cons a rest ih =>
    intro h
    rw [List.filterMap_cons, List.filterMap_cons, h a (List.mem_cons_self _ _),
      ih (fun x hx => h x (List.mem_cons_of_mem _ hx))]

theorem nodup_two_length {l : List String} {A B : String} (hnd : l.Nodup)
    (hsub : ∀ x ∈ l, x = A ∨ x = B) (hA : A ∈ l) (hB : B ∈ l) (hAB : A ≠ B) :
    l.length = 2 := by
  have hfin : l.toFinset = {A, B} := by
    ext x
    simp only [List.mem_toFinset, Finset.mem_insert, Finset.mem_singleton]
    constructor
    · exact hsub x
    · rintro (rfl | rfl)
      · exact hA
      · exact hB
  have hcard : l.toFinset.card = 2 := by
    rw [hfin, Finset.card_insert_of_not_mem (by simp [hAB]), Finset.card_singleton]
  rw [← List.toFinset_card_of_nodup hnd]
  exact hcard

theorem mem_eventsFor {l : List RawEvent} {k : String} {e : RawEvent} :
    e ∈ eventsFor l k ↔ e ∈ l ∧ txKey e = some k := by
  simp [eventsFor, List.mem_filter]

theorem mkSaleEvent_isSome {l : List RawEvent} {k : String} {e : RawEvent}
    (he : e ∈ eventsFor l k) (ht : eventTokenId e ≠ none) :
    (mkSaleEvent k (eventsFor l k)).isSome = true := by
  obtain ⟨t, htok⟩ := Option.ne_none_iff_exists'.mp ht
  have htids : collectTokenIds (eventsFor l k) ≠ [] := by
    intro habs
    have hmem : t ∈ collectTokenIds (eventsFor l k) := by
      unfold collectTokenIds
      exact List.mem_filterMap.mpr ⟨e, he, htok⟩
    rw [habs] at hmem
    exact List.not_mem_nil t hmem
  cases hev : eventsFor l k with
  | nil =>
    rw [hev] at he
    exact absurd he (List.not_mem_nil e)
  | cons first rest =>
    rw [hev] at htids
    simp [mkSaleEvent, htids]

/-- C6: a raw event list whose truthy transaction hashes are exactly two
distinct values A and B, each group containing at least one event carrying
an asset reference (a collectable token id), parses to exactly 2
`SaleEvent`s; each emitted sale belongs to one of the two transactions with
`token_count` at most the size of that transaction's group; appending an
event lacking a transaction identifier changes nothing; and every emitted
sale of any parse has at least one token id (empty groups are discarded). -/
theorem grouping_two_transactions (l : List RawEvent) (A B : String) (hAB : A ≠ B)
    (htx : ∀ e ∈ l, txKey e = none ∨ txKey e = some A ∨ txKey e = some B)
    (hA : ∃ e ∈ l, txKey e = some A ∧ eventTokenId e ≠ none)
    (hB : ∃ e ∈ l, txKey e = some B ∧ eventTokenId e ≠ none) :
    (parseSalesResponse (some l)).length = 2 ∧
    (∀ s ∈ parseSalesResponse (some l),
      (s.tx_hash = A ∧ s.token_count ≤ (eventsFor l A).length) ∨
      (s.tx_hash = B ∧ s.token_count ≤ (eventsFor l B).length)) ∧
    (∀ (l' : List RawEvent) (e : RawEvent), txKey e = none →
      parseSalesResponse (some (l' ++ [e])) = parseSalesResponse (some l')) ∧
    (∀ d : Option (List RawEvent), ∀ s ∈ parseSalesResponse d, 1 ≤ s.token_count) := by
  obtain ⟨eA, heA, htxA, httA⟩ := hA
  obtain ⟨eB, heB, htxB, httB⟩ := hB
  have hkA : A ∈ groupKeys l := (mem_groupKeysFrom l [] A).mpr (Or.inr ⟨eA, heA, htxA⟩)
  have hkB : B ∈ groupKeys l := (mem_groupKeysFrom l [] B).mpr (Or.inr ⟨eB, heB, htxB⟩)
  have hsub : ∀ k ∈ groupKeys l, k = A ∨ k = B := by
    intro k hk
    rcases (mem_groupKeysFrom l [] k).mp hk with habs | ⟨e, he, hte⟩
    · exact absurd habs (List.not_mem_nil k)
    · rcases htx e he with h0 | hA' | hB'
      · rw [h0] at hte
        exact absurd hte (by simp)
      · rw [hA'] at hte
        exact Or.inl (Option.some.inj hte).symm
      · rw [hB'] at hte
        exact Or.inr (Option.some.inj hte).symm
  have hnd : (groupKeys l).Nodup := nodup_groupKeysFrom l [] List.nodup_nil
  have hlen2 : (groupKeys l).length = 2 := nodup_two_length hnd hsub hkA hkB hAB
  have hallsome : ∀ k ∈ groupKeys l, (mkSaleEvent k (eventsFor l k)).isSome = true := by
    intro k hk
    rcases hsub k hk with rfl | rfl
    · exact mkSaleEvent_isSome (mem_eventsFor.mpr ⟨heA, htxA⟩) httA
    · exact mkSaleEvent_isSome (mem_eventsFor.mpr ⟨heB, htxB⟩) httB
  refine ⟨?_, ?_, ?_, ?_⟩
  · show ((groupKeys l).filterMap (fun k => mkSaleEvent k (eventsFor l k))).length = 2
    rw [length_filterMap_of_isSome _ _ hallsome, hlen2]
  · intro s hs
    obtain ⟨k, hk, hmk⟩ := List.mem_filterMap.mp hs
    obtain ⟨htx', hcount, -, -, -, -⟩ := mkSaleEvent_inv hmk
    have hlecol : (collectTokenIds (eventsFor l k)).length ≤ (eventsFor l k).length :=
      List.length_filterMap_le _ _
    rcases hsub k hk with rfl | rfl
    · exact Or.inl ⟨htx', by rw [hcount]; exact hlecol⟩
    · exact Or.inr ⟨htx', by rw [hcount]; exact hlecol⟩
  · intro l' e hte
    show (groupKeys (l' ++ [e])).filterMap (fun k => mkSaleEvent k (eventsFor (l' ++ [e]) k)) =
      (groupKeys l').filterMap (fun k => mkSaleEvent k (eventsFor l' k))
    have hkeys : groupKeys (l' ++ [e]) = groupKeys l' := by
      unfold groupKeys
      rw [groupKeysFrom_append, groupKeysFrom_cons_none hte]
      rfl
    rw [hkeys]
    apply filterMap_ext
    intro k _
    have hev : eventsFor (l' ++ [e]) k = eventsFor l' k := by
      unfold eventsFor
      rw [List.filter_append]
      have hnil : List.filter (fun e' => txKey e' == some k) [e] = [] := by
        simp [List.filter, hte]
      rw [hnil, List.append_nil]
    rw [hev]
  · intro d s hs
    obtain ⟨l'', k, -, -, hmk⟩ := parse_mem hs
    obtain ⟨-, hcount, hne, -, -, -⟩ := mkSaleEvent_inv hmk
    rw [hcount]
    cases hcol : collectTokenIds (eventsFor l'' k) with
    | nil => exact absurd hcol hne
    | cons a t => simp

/-- Witness for C6: the theorem applied to a concrete five-event list —
three events of transaction 0xabc (one without an asset), one of 0xdef, and
one lacking a transaction hash — which parses to exactly two sales. -/
theorem grouping_two_transactions_applied :
    (parseSalesResponse (some [evA1, evNoTx, evA2, evB1, evBadPrice])).length = 2 :=
  (grouping_two_transactions [evA1, evNoTx, evA2, evB1, evBadPrice] "0xabc" "0xdef"
    (by decide) (by decide) (by decide) (by decide)).1

end SalesBot
